import Mathlib

/-!
Verification of the time-frequency reassignment core (`tfr/reassignment.py`).

The Python source is shallowly embedded below.  Dense 2-D numpy arrays become
`List (List _)` (row-major: rows are blocks, columns are frequency bins),
complex spectra use `ℂ`, and real-valued array arithmetic is modelled exactly
over a linear ordered field (instantiated at `ℚ` for concrete evaluations and
at `ℝ` where complex phases are involved).  Each definition carries a note
pointing at the source lines it embeds; collaborator functions that live in
modules outside the provided source are modelled from the specification and
marked as such.
-/

namespace TFR

section Histogram

variable {α : Type} [LinearOrderedField α] [FloorRing α]

/-- Bin index assignment of numpy's uniform-range 1-D binning used by
`np.histogram2d` (reassignment.py line 158): `n` equal-width cells spanning
`[lo, hi]`, half-open except that the final edge is inclusive; coordinates
outside `[lo, hi]` (or a degenerate grid) get no bin. -/
def binIndex (lo hi : α) (n : ℕ) (x : α) : Option ℕ :=
  if x < lo ∨ hi < x ∨ n = 0 ∨ hi ≤ lo then none
  else if x = hi then some (n - 1)
  else some (Int.toNat ⌊(x - lo) * n / (hi - lo)⌋)

/-- The weighted 2-D histogram at the heart of the requantization engine
(`np.histogram2d` call of `requantize_tf_spectrogram_common`,
reassignment.py lines 158-162): cell `(i, j)` accumulates the weights of all
samples `(t, y, w)` whose time coordinate bins to `i` and whose axis
coordinate bins to `j`. -/
def histogram2d (samples : List (α × α × α)) (tlo thi : α) (nT : ℕ)
    (ylo yhi : α) (nB : ℕ) : ℕ → ℕ → α :=
  fun i j =>
    (samples.map (fun s =>
      if binIndex tlo thi nT s.1 = some i ∧ binIndex ylo yhi nB s.2.1 = some j
      then s.2.2 else 0)).sum

/-- Total mass of an output grid over its declared `nT × nB` cells. -/
def gridTotal (g : ℕ → ℕ → α) (nT nB : ℕ) : α :=
  ∑ i ∈ Finset.range nT, ∑ j ∈ Finset.range nB, g i j

/-- Sum of the weights of the samples whose coordinates lie inside the
declared time and axis ranges. -/
def inRangeWeightSum (samples : List (α × α × α)) (tlo thi ylo yhi : α) : α :=
  (samples.map (fun s =>
    if (tlo ≤ s.1 ∧ s.1 ≤ thi) ∧ (ylo ≤ s.2.1 ∧ s.2.1 ≤ yhi)
    then s.2.2 else 0)).sum

lemma binIndex_out_of_range {lo hi x : α} (n : ℕ) (h : x < lo ∨ hi < x) :
    binIndex lo hi n x = none := by
  unfold binIndex
  rcases h with h | h
  · rw [if_pos (Or.inl h)]
  · rw [if_pos (Or.inr (Or.inl h))]

lemma binIndex_mem_range {lo hi x : α} {n i : ℕ}
    (h : binIndex lo hi n x = some i) : lo ≤ x ∧ x ≤ hi := by
  unfold binIndex at h
  by_cases hc : x < lo ∨ hi < x ∨ n = 0 ∨ hi ≤ lo
  · rw [if_pos hc] at h; exact absurd h (by simp)
  · push_neg at hc
    exact ⟨hc.1, hc.2.1⟩

lemma binIndex_lt {lo hi x : α} {n i : ℕ}
    (h : binIndex lo hi n x = some i) : i < n := by
  unfold binIndex at h
  by_cases hc : x < lo ∨ hi < x ∨ n = 0 ∨ hi ≤ lo
  · rw [if_pos hc] at h; exact absurd h (by simp)
  · rw [if_neg hc] at h
    push_neg at hc
    obtain ⟨hxlo, hxhi, hn, hlohi⟩ := hc
    have hn' : 0 < n := Nat.pos_of_ne_zero hn
    by_cases hx : x = hi
    · rw [if_pos hx] at h
      have : i = n - 1 := by exact (Option.some_inj.mp h).symm
      omega
    · rw [if_neg hx] at h
      have hival : i = Int.toNat ⌊(x - lo) * n / (hi - lo)⌋ :=
        (Option.some_inj.mp h).symm
      have hlt : (x - lo) * n / (hi - lo) < (n : α) := by
        rw [div_lt_iff₀ (by linarith : (0 : α) < hi - lo)]
        have hxlt : x < hi := lt_of_le_of_ne hxhi hx
        have : (0 : α) < n := by exact_mod_cast hn'
        nlinarith
      have hfl : ⌊(x - lo) * n / (hi - lo)⌋ < (n : ℤ) := by
        rw [Int.floor_lt]; exact_mod_cast hlt
      subst hival
      omega

lemma binIndex_isSome {lo hi x : α} {n : ℕ} (hlohi : lo < hi) (hn : 1 ≤ n)
    (h1 : lo ≤ x) (h2 : x ≤ hi) : ∃ i, binIndex lo hi n x = some i := by
  unfold binIndex
  have hc : ¬(x < lo ∨ hi < x ∨ n = 0 ∨ hi ≤ lo) := by
    push_neg
    exact ⟨h1, h2, by omega, hlohi⟩
  rw [if_neg hc]
  by_cases hx : x = hi
  · rw [if_pos hx]; exact ⟨n - 1, rfl⟩
  · rw [if_neg hx]; exact ⟨_, rfl⟩

lemma histogram2d_nil (tlo thi : α) (nT : ℕ) (ylo yhi : α) (nB : ℕ)
    (i j : ℕ) : histogram2d [] tlo thi nT ylo yhi nB i j = 0 := rfl

lemma histogram2d_cons (s : α × α × α) (L : List (α × α × α))
    (tlo thi : α) (nT : ℕ) (ylo yhi : α) (nB : ℕ) (i j : ℕ) :
    histogram2d (s :: L) tlo thi nT ylo yhi nB i j =
      (if binIndex tlo thi nT s.1 = some i ∧ binIndex ylo yhi nB s.2.1 = some j
       then s.2.2 else 0) + histogram2d L tlo thi nT ylo yhi nB i j := by
  simp [histogram2d]

lemma gridTotal_histogram2d_cons (s : α × α × α) (L : List (α × α × α))
    (tlo thi : α) (nT : ℕ) (ylo yhi : α) (nB : ℕ) :
    gridTotal (histogram2d (s :: L) tlo thi nT ylo yhi nB) nT nB =
      (if (binIndex tlo thi nT s.1).isSome ∧ (binIndex ylo yhi nB s.2.1).isSome
       then s.2.2 else 0)
      + gridTotal (histogram2d L tlo thi nT ylo yhi nB) nT nB := by
  unfold gridTotal
  have hsplit : ∀ i j, histogram2d (s :: L) tlo thi nT ylo yhi nB i j =
      (if binIndex tlo thi nT s.1 = some i ∧ binIndex ylo yhi nB s.2.1 = some j
       then s.2.2 else 0) + histogram2d L tlo thi nT ylo yhi nB i j :=
    histogram2d_cons s L tlo thi nT ylo yhi nB
  simp only [hsplit, Finset.sum_add_distrib]
  congr 1
  rcases ht : binIndex tlo thi nT s.1 with _ | i0
  · simp [ht]
  rcases hy : binIndex ylo yhi nB s.2.1 with _ | j0
  · simp [ht, hy]
  have hi0 : i0 < nT := binIndex_lt ht
  have hj0 : j0 < nB := binIndex_lt hy
  simp only [ht, hy, Option.isSome_some, and_self, if_true]
  have hval : ∀ i j : ℕ,
      (if some i0 = some i ∧ some j0 = some j then s.2.2 else 0)
        = (if i = i0 ∧ j = j0 then s.2.2 else 0) := by
    intro i j
    by_cases hij : i = i0 ∧ j = j0
    · obtain ⟨h1, h2⟩ := hij
      subst h1; subst h2; simp
    · rw [if_neg hij, if_neg]
      intro hcontra
      exact hij ⟨(Option.some_inj.mp hcontra.1).symm,
        (Option.some_inj.mp hcontra.2).symm⟩
  simp only [hval]
  have h1 : (∑ i ∈ Finset.range nT, ∑ j ∈ Finset.range nB,
      if i = i0 ∧ j = j0 then s.2.2 else 0)
      = ∑ j ∈ Finset.range nB, if i0 = i0 ∧ j = j0 then s.2.2 else 0 :=
    Finset.sum_eq_single_of_mem i0 (Finset.mem_range.mpr hi0)
      (fun i _ hne => Finset.sum_eq_zero (fun j _ => by simp [hne]))
  rw [h1]
  simp [Finset.sum_ite_eq', Finset.mem_range.mpr hj0]

end Histogram

section Engine

variable {α : Type} [LinearOrderedField α] [FloorRing α]

/-- Machine epsilon of IEEE single precision, `np.finfo(np.float32).eps`
(reassignment.py lines 138, 178, 267): `2 ^ (-23)`. -/
def eps32 : α := 1 / 8388608

/-- Number of columns of a row-major 2-D array (`shape[1]` of a rectangular
numpy array). -/
def numCols {β : Type} (X : List (List β)) : ℕ := (X.headD []).length

/-- Modelled from the spec: `fftfreqs` of the missing `spectrogram` module —
the uniform per-bin static center frequencies of the non-redundant positive
half-spectrum (DC through Nyquist) in Hz, `k * fs / block_size` for
`k = 0 .. block_size/2` (spec section 4.4: the block's static per-bin
frequency, uniform for all blocks; section 6: the half-spectrum includes DC
and Nyquist). -/
def fftfreqs (block_size : ℕ) (fs : α) : List α :=
  (List.range (block_size / 2 + 1)).map
    (fun (k : ℕ) => (k : α) * fs / (block_size : α))

/-- Linear-frequency axis transform strategy (reassignment.py lines 114-121):
identity on the instantaneous-frequency array, output bin count equal to the
input column count, bin range `(0, 0.5)` for the positive-only half-spectrum
and `(0, 1)` otherwise. -/
def transform_freqs_spectrogram (positive_only : Bool) :
    List (List α) → List (List α) × ℕ × (α × α) :=
  fun X_inst_freqs =>
    (X_inst_freqs, numCols X_inst_freqs,
     if positive_only then ((0 : α), 1 / 2) else (0, 1))

/-- Requantization engine (reassignment.py lines 144-164).  Computes the
output frame count by flooring the scaled end time, derives the shared time
range, and performs the weighted 2-D histogram of the flattened
(time, axis) pairs.  Returns the counts grid together with the derived
output frame count and time range (which in the source determine the
returned uniform `x_edges`/`y_edges`). -/
def requantize_tf_spectrogram_common (X_time X_y : List (List α))
    (times : List α) (block_size : ℕ) (output_frame_size : α)
    (output_bin_count : ℕ) (bin_range : α × α) (fs : α)
    (weights : List (List α)) : (ℕ → ℕ → α) × ℤ × (α × α) :=
  let block_duration : α := (block_size : α) / fs
  let end_input_time : α := times.getLastD 0 + block_duration
  let output_frame_count : ℤ := ⌊end_input_time * fs / output_frame_size⌋
  let time_range : α × α :=
    (0, (output_frame_count : α) * output_frame_size / fs)
  let samples : List (α × α × α) :=
    (X_time.flatten).zip ((X_y.flatten).zip (weights.flatten))
  (histogram2d samples time_range.1 time_range.2 output_frame_count.toNat
     bin_range.1 bin_range.2 output_bin_count,
   output_frame_count, time_range)

/-- Reassigned time-frequency spectrogram assembler (reassignment.py lines
166-194).  Nominal times are block centers plus the float32 epsilon; group
delays shift them when `reassign_time`; the axis coordinate is either the
instantaneous frequency or the tiled static per-bin frequency; the chosen
axis transform strategy then fixes the output bin count and range before
requantization.  The accumulated grid is squared into power; the final dB
compression is the external `db_scale` collaborator, taken here as the
function argument `dbs`. -/
def reassigned_tf_spectrogram (dbs : (ℕ → ℕ → α) → ℕ → ℕ → α)
    (X_group_delays X_inst_freqs : List (List α)) (times : List α)
    (block_size : ℕ) (output_frame_size fs : α) (X_mag : List (List α))
    (transform_freqs_func : List (List α) → List (List α) × ℕ × (α × α))
    (reassign_time reassign_frequency : Bool) : ℕ → ℕ → α :=
  let block_duration : α := (block_size : α) / fs
  let block_center_time : α := block_duration / 2
  let input_bin_count : ℕ := numCols X_inst_freqs
  let X_time0 : List (List α) :=
    times.map (fun t => List.replicate input_bin_count (t + block_center_time + eps32))
  let X_time : List (List α) :=
    if reassign_time then
      List.zipWith (fun tr gr =>
        List.zipWith (fun t g => t + g * block_duration) tr gr) X_time0 X_group_delays
    else X_time0
  let X_y0 : List (List α) :=
    if reassign_frequency then X_inst_freqs
    else X_inst_freqs.map (fun _ => (fftfreqs block_size fs).map (fun f => f / fs))
  let r := transform_freqs_func X_y0
  let grid := (requantize_tf_spectrogram_common X_time r.1 times block_size
    output_frame_size r.2.1 r.2.2 fs X_mag).1
  dbs (fun i j => grid i j ^ 2)

/-- Follows the spec's words for claim C1: manually rebin the given per-block
per-bin weights, placed at the nominal block-center times and at the uniform
per-bin static frequencies, onto the same output grid that the
requantization engine declares (same frame-count formula, same time range,
bin count equal to the static frequency count, bin range `(0, 0.5)` for the
positive half / `(0, 1)` otherwise). -/
def manual_static_rebin (times : List α) (block_size : ℕ)
    (output_frame_size fs : α) (W : List (List α)) (positive_only : Bool) :
    ℕ → ℕ → α :=
  let block_duration : α := (block_size : α) / fs
  let fc : ℤ := ⌊(times.getLastD 0 + block_duration) * fs / output_frame_size⌋
  let sf : List α := (fftfreqs block_size fs).map (fun f => f / fs)
  let br : α × α := if positive_only then ((0 : α), 1 / 2) else (0, 1)
  let samples : List (α × α × α) :=
    ((times.zip W).map (fun p =>
      (sf.zip p.2).map (fun q => (p.1 + block_duration / 2 + eps32, q)))).flatten
  histogram2d samples 0 ((fc : α) * output_frame_size / fs) fc.toNat
    br.1 br.2 sf.length

end Engine

section EngineLemmas

variable {α : Type} [LinearOrderedField α] [FloorRing α]

lemma replicate_zip {β γ : Type} (c : β) (l : List γ) :
    (List.replicate l.length c).zip l = l.map (fun x => (c, x)) := by
  induction l with
  | nil => rfl
  | cons x l ih => simp [List.replicate, List.zip_cons_cons, ih]

omit [LinearOrderedField α] [FloorRing α] in
/-- Flattening-then-zipping the tiled time array, the tiled static-frequency
array and the weight array produces exactly the row-by-row samples of the
manual rebinning, provided the shapes agree. -/
lemma samples_flatten (g : α → α) (ts : List α) (IFl W : List (List α))
    (sf : List α) (h1 : IFl.length = ts.length) (h2 : W.length = ts.length)
    (hr : ∀ r ∈ W, r.length = sf.length) :
    ((ts.map (fun t => List.replicate sf.length (g t))).flatten).zip
      (((IFl.map (fun _ => sf)).flatten).zip W.flatten)
    = ((ts.zip W).map (fun p =>
        (sf.zip p.2).map (fun q => (g p.1, q)))).flatten := by
  induction ts generalizing IFl W with
  | nil =>
    have hI : IFl = [] := List.length_eq_zero.mp (by simp [h1])
    have hW : W = [] := List.length_eq_zero.mp (by simp [h2])
    subst hI; subst hW
    simp
  | cons t ts ih =>
    rcases IFl with _ | ⟨ir, IFl⟩
    · exact absurd h1 (by simp)
    rcases W with _ | ⟨wr, W⟩
    · exact absurd h2 (by simp)
    have h1' : IFl.length = ts.length := by simpa using h1
    have h2' : W.length = ts.length := by simpa using h2
    have hwr : wr.length = sf.length := hr wr (List.mem_cons_self wr W)
    have hr' : ∀ r ∈ W, r.length = sf.length :=
      fun r hrm => hr r (List.mem_cons_of_mem wr hrm)
    simp only [List.map_cons, List.flatten_cons, List.zip_cons_cons]
    rw [List.zip_append (by simp [hwr])]
    have hlen : (sf.zip wr).length = sf.length := by
      rw [List.length_zip, hwr, min_self]
    rw [List.zip_append (by simp [hlen])]
    have hrep : (List.replicate sf.length (g t)).zip (sf.zip wr)
        = (sf.zip wr).map (fun q => (g t, q)) := by
      rw [← hlen]; exact replicate_zip (g t) (sf.zip wr)
    rw [hrep, ih IFl W h1' h2' hr']

omit [FloorRing α] in
lemma fftfreqs_length (block_size : ℕ) (fs : α) :
    (fftfreqs block_size fs).length = block_size / 2 + 1 := by
  rw [fftfreqs, List.length_map, List.length_range]

end EngineLemmas

section C1Proof

variable {α : Type} [LinearOrderedField α] [FloorRing α]

/-- Claim C1 (amended): with `reassign_time = False` and
`reassign_frequency = False` and the linear-frequency strategy, the grid
produced by `reassigned_tf_spectrogram` is the square (amplitude-to-power
conversion) of the grid obtained by manually rebinning the amplitude
weights `X_mag` at the uniform per-bin static frequencies onto the same
output grid, both wrapped in the same external dB scaling.  In particular
the output never depends on the group delays or on the values of the
instantaneous-frequency estimates. -/
theorem requantized_stft_rebins_amplitudes
    (dbs : (ℕ → ℕ → α) → ℕ → ℕ → α)
    (X_group_delays X_inst_freqs X_mag : List (List α)) (times : List α)
    (block_size : ℕ) (output_frame_size fs : α) (positive_only : Bool)
    (hIF : X_inst_freqs.length = times.length)
    (hW : X_mag.length = times.length)
    (hne : X_inst_freqs ≠ [])
    (hcols : numCols X_inst_freqs = block_size / 2 + 1)
    (hrows : ∀ r ∈ X_mag, r.length = block_size / 2 + 1) :
    reassigned_tf_spectrogram dbs X_group_delays X_inst_freqs times block_size
      output_frame_size fs X_mag (transform_freqs_spectrogram positive_only)
      false false
    = dbs (fun i j =>
        manual_static_rebin times block_size output_frame_size fs X_mag
          positive_only i j ^ 2) := by
  have hr' : ∀ r ∈ X_mag,
      r.length = ((fftfreqs block_size fs).map (fun f => f / fs)).length := by
    intro r hrm
    rw [List.length_map, fftfreqs_length]
    exact hrows r hrm
  have hXy0 : numCols (X_inst_freqs.map
        (fun _ => (fftfreqs block_size fs).map (fun f => f / fs)))
      = ((fftfreqs block_size fs).map (fun f => f / fs)).length := by
    rcases X_inst_freqs with _ | ⟨r, R⟩
    · exact absurd rfl hne
    · simp [numCols]
  have hcols' : numCols X_inst_freqs
      = ((fftfreqs block_size fs).map (fun f => f / fs)).length := by
    rw [hcols, List.length_map, fftfreqs_length]
  have hsamp := samples_flatten (α := α)
    (fun t => t + (block_size : α) / fs / 2 + eps32) times X_inst_freqs X_mag
    ((fftfreqs block_size fs).map (fun f => f / fs)) hIF hW hr'
  simp only [reassigned_tf_spectrogram, requantize_tf_spectrogram_common,
    transform_freqs_spectrogram, manual_static_rebin, Bool.false_eq_true,
    if_false]
  simp only [hcols', hXy0, hsamp]

end C1Proof

section MassLemmas

variable {α : Type} [LinearOrderedField α] [FloorRing α]

lemma binIndex_isSome_iff {lo hi x : α} {n : ℕ} (hlohi : lo < hi)
    (hn : 1 ≤ n) : (binIndex lo hi n x).isSome ↔ (lo ≤ x ∧ x ≤ hi) := by
  constructor
  · intro h
    rcases Option.isSome_iff_exists.mp h with ⟨i, hi⟩
    exact binIndex_mem_range hi
  · rintro ⟨h1, h2⟩
    rcases binIndex_isSome hlohi hn h1 h2 with ⟨i, hi⟩
    simp [hi]

lemma histogram2d_nonneg (samples : List (α × α × α)) (tlo thi : α) (nT : ℕ)
    (ylo yhi : α) (nB : ℕ) (hw : ∀ s ∈ samples, 0 ≤ s.2.2) (i j : ℕ) :
    0 ≤ histogram2d samples tlo thi nT ylo yhi nB i j := by
  apply List.sum_nonneg
  intro a ha
  rcases List.mem_map.mp ha with ⟨s, hs, rfl⟩
  by_cases hcond : binIndex tlo thi nT s.1 = some i ∧
      binIndex ylo yhi nB s.2.1 = some j
  · rw [if_pos hcond]; exact hw s hs
  · rw [if_neg hcond]

lemma gridTotal_histogram2d_eq_inRangeWeightSum (samples : List (α × α × α))
    (tlo thi : α) (nT : ℕ) (ylo yhi : α) (nB : ℕ)
    (ht : tlo < thi) (hy : ylo < yhi) (hnT : 1 ≤ nT) (hnB : 1 ≤ nB) :
    gridTotal (histogram2d samples tlo thi nT ylo yhi nB) nT nB
      = inRangeWeightSum samples tlo thi ylo yhi := by
  induction samples with
  | nil => simp [gridTotal, histogram2d, inRangeWeightSum]
  | cons s L ih =>
    rw [gridTotal_histogram2d_cons, ih]
    have hcond : ((binIndex tlo thi nT s.1).isSome ∧
        (binIndex ylo yhi nB s.2.1).isSome)
        ↔ ((tlo ≤ s.1 ∧ s.1 ≤ thi) ∧ (ylo ≤ s.2.1 ∧ s.2.1 ≤ yhi)) := by
      rw [binIndex_isSome_iff ht hnT, binIndex_isSome_iff hy hnB]
    unfold inRangeWeightSum
    simp only [List.map_cons, List.sum_cons]
    congr 1
    by_cases hc : (tlo ≤ s.1 ∧ s.1 ≤ thi) ∧ (ylo ≤ s.2.1 ∧ s.2.1 ≤ yhi)
    · rw [if_pos (hcond.mpr hc), if_pos hc]
    · rw [if_neg (fun habs => hc (hcond.mp habs)), if_neg hc]

omit [LinearOrderedField α] [FloorRing α] in
lemma zip_map_snd_sublist {β : Type} (A : List α) (D : List β) :
    ((A.zip D).map Prod.snd).Sublist D := by
  induction A generalizing D with
  | nil => simp
  | cons a A ih =>
    rcases D with _ | ⟨d, D⟩
    · simp
    · simpa using (ih D).cons₂ d

omit [FloorRing α] in
lemma inRangeWeightSum_le_total (samples : List (α × α × α))
    (tlo thi ylo yhi : α) (hw : ∀ s ∈ samples, 0 ≤ s.2.2) :
    inRangeWeightSum samples tlo thi ylo yhi
      ≤ (samples.map (fun s => s.2.2)).sum := by
  unfold inRangeWeightSum
  apply List.sum_le_sum
  intro s hs
  by_cases hc : (tlo ≤ s.1 ∧ s.1 ≤ thi) ∧ (ylo ≤ s.2.1 ∧ s.2.1 ≤ yhi)
  · rw [if_pos hc]
  · rw [if_neg hc]; exact hw s hs

end MassLemmas

section ClaimTheoremsEngine

variable {α : Type} [LinearOrderedField α] [FloorRing α]

/-- Claim C1 (counterexample): with `reassign_time = False` and
`reassign_frequency = False`, the output cell is the square of the sum of
the amplitude weights that fall into it, which differs from rebinning
`X_mag²` as soon as two samples share an output cell.  Here two blocks
(times 0 and 1/4, block size 4, sample rate 4, output frame size 4) fall
into the same output frame; their DC bins carry amplitude 1 each, so the
code produces `(1+1)² = 4` while rebinning the squared magnitudes gives
`1² + 1² = 2`. -/
theorem requantized_stft_power_rebin_counterexample :
    reassigned_tf_spectrogram (α := ℚ) id [[0, 0, 0], [0, 0, 0]]
        [[0, 0, 0], [0, 0, 0]] [0, 1/4] 4 4 4 [[1, 0, 0], [1, 0, 0]]
        (transform_freqs_spectrogram true) false false 0 0
      ≠ manual_static_rebin [0, 1/4] 4 4 4
        (([[1, 0, 0], [1, 0, 0]] : List (List ℚ)).map
          (fun r => r.map (fun m => m ^ 2))) true 0 0 := by
  have h1 : reassigned_tf_spectrogram (α := ℚ) id [[0, 0, 0], [0, 0, 0]]
      [[0, 0, 0], [0, 0, 0]] [0, 1/4] 4 4 4 [[1, 0, 0], [1, 0, 0]]
      (transform_freqs_spectrogram true) false false 0 0 = 4 := by
    norm_num [reassigned_tf_spectrogram, requantize_tf_spectrogram_common,
      transform_freqs_spectrogram, histogram2d, binIndex, numCols, fftfreqs,
      eps32, List.range_succ, List.replicate_succ]
  have h2 : manual_static_rebin [0, 1/4] 4 4 4
      (([[1, 0, 0], [1, 0, 0]] : List (List ℚ)).map
        (fun r => r.map (fun m => m ^ 2))) true 0 0 = 2 := by
    norm_num [manual_static_rebin, histogram2d, binIndex, numCols, fftfreqs,
      eps32, List.range_succ, List.replicate_succ]
  rw [h1, h2]
  norm_num

/-- Witness for the amended claim C1 at a concrete input. -/
theorem requantized_stft_rebins_amplitudes_witness :
    reassigned_tf_spectrogram (α := ℚ) id [[0, 0, 0], [0, 0, 0]]
        [[0, 0, 0], [0, 0, 0]] [0, 1/4] 4 4 4 [[1, 0, 0], [1, 0, 0]]
        (transform_freqs_spectrogram true) false false
      = id (fun i j =>
          manual_static_rebin ([0, 1/4] : List ℚ) 4 4 4 [[1, 0, 0], [1, 0, 0]]
            true i j ^ 2) :=
  requantized_stft_rebins_amplitudes id [[0, 0, 0], [0, 0, 0]]
    [[0, 0, 0], [0, 0, 0]] [[1, 0, 0], [1, 0, 0]] [0, 1/4] 4 4 4 true
    rfl rfl (by simp) rfl
    (by intro r hr
        simp only [List.mem_cons, List.not_mem_nil, or_false] at hr
        rcases hr with rfl | rfl <;> rfl)

/-- Claim C4: a sample whose time coordinate or axis coordinate falls
outside the declared time or bin range contributes nothing to any cell of
the histogram grid (first conjunct), and an in-range sample's weight is
fully accounted for in the grid total, so edge-clipping is the only discard
path (second conjunct).  The embedding is total, so no error is raised for
out-of-range coordinates. -/
theorem histogram_edge_clipping
    (tlo thi ylo yhi : α) (nT nB : ℕ) (s : α × α × α)
    (L : List (α × α × α)) :
    ((s.1 < tlo ∨ thi < s.1 ∨ s.2.1 < ylo ∨ yhi < s.2.1) →
      ∀ i j, histogram2d (s :: L) tlo thi nT ylo yhi nB i j
        = histogram2d L tlo thi nT ylo yhi nB i j)
    ∧ (tlo < thi → ylo < yhi → 1 ≤ nT → 1 ≤ nB →
       tlo ≤ s.1 → s.1 ≤ thi → ylo ≤ s.2.1 → s.2.1 ≤ yhi →
       gridTotal (histogram2d (s :: L) tlo thi nT ylo yhi nB) nT nB
         = s.2.2 + gridTotal (histogram2d L tlo thi nT ylo yhi nB) nT nB) := by
  constructor
  · intro hout i j
    rw [histogram2d_cons, if_neg, zero_add]
    intro hcontra
    have ht := binIndex_mem_range hcontra.1
    have hy := binIndex_mem_range hcontra.2
    rcases hout with h | h | h | h <;> linarith [ht.1, ht.2, hy.1, hy.2]
  · intro h1 h2 h3 h4 h5 h6 h7 h8
    rw [gridTotal_histogram2d_cons]
    obtain ⟨i0, hi0⟩ := binIndex_isSome h1 h3 h5 h6
    obtain ⟨j0, hj0⟩ := binIndex_isSome h2 h4 h7 h8
    rw [if_pos ⟨by simp [hi0], by simp [hj0]⟩]

/-- Witness for claim C4 at concrete inputs: a sample at time 5 outside the
declared time range `[0, 1]` contributes nothing, and an in-range sample of
weight 7 is counted in full. -/
theorem histogram_edge_clipping_witness :
    (histogram2d (α := ℚ) [(5, 0, 7)] 0 1 1 0 1 1 0 0
      = histogram2d [] 0 1 1 0 1 1 0 0)
    ∧ (gridTotal (histogram2d (α := ℚ) [(1/2, 1/2, 7)] 0 1 1 0 1 1) 1 1
      = 7 + gridTotal (histogram2d [] 0 1 1 0 1 1) 1 1) :=
  ⟨(histogram_edge_clipping 0 1 0 1 1 1 (5, 0, 7) []).1
      (by norm_num) 0 0,
   (histogram_edge_clipping 0 1 0 1 1 1 (1/2, 1/2, 7) []).2
      (by norm_num) (by norm_num) (by norm_num) (by norm_num)
      (by norm_num) (by norm_num) (by norm_num) (by norm_num)⟩

/-- Claim C5: for a non-empty `times` array, the requantization engine's
output frame count is the floor of `(times[-1] + block_size/fs) * fs /
output_frame_size` and its declared time range is
`(0, frame_count * output_frame_size / fs)`. -/
theorem requantize_frame_count_and_time_range
    (X_time X_y weights : List (List α)) (ts : List α) (t : α)
    (block_size : ℕ) (output_frame_size : α) (output_bin_count : ℕ)
    (bin_range : α × α) (fs : α) :
    (requantize_tf_spectrogram_common X_time X_y (ts ++ [t]) block_size
        output_frame_size output_bin_count bin_range fs weights).2.1
      = ⌊(t + (block_size : α) / fs) * fs / output_frame_size⌋
    ∧ (requantize_tf_spectrogram_common X_time X_y (ts ++ [t]) block_size
        output_frame_size output_bin_count bin_range fs weights).2.2
      = (0, ((⌊(t + (block_size : α) / fs) * fs / output_frame_size⌋ : ℤ) : α)
            * output_frame_size / fs) := by
  have hlast : (ts ++ [t]).getLastD 0 = t := List.getLastD_concat 0 t ts
  constructor <;> simp [requantize_tf_spectrogram_common, hlast]

/-- Claim C9: with elementwise non-negative weights, every cell of the
requantized grid is non-negative, the total over the declared grid equals
the sum of the weights of the samples whose coordinates lie within the
declared time and bin ranges, and that total never exceeds the sum of all
weights. -/
theorem requantize_mass_conservation
    (X_time X_y weights : List (List α)) (times : List α) (block_size : ℕ)
    (output_frame_size : α) (output_bin_count : ℕ) (bin_range : α × α)
    (fs : α) (samples : List (α × α × α)) (fc : ℤ)
    (hsamples : samples
      = (X_time.flatten).zip ((X_y.flatten).zip (weights.flatten)))
    (hfc : fc = (requantize_tf_spectrogram_common X_time X_y times block_size
        output_frame_size output_bin_count bin_range fs weights).2.1)
    (hw : ∀ r ∈ weights, ∀ w ∈ r, 0 ≤ w)
    (hbr : bin_range.1 < bin_range.2) (hnB : 1 ≤ output_bin_count)
    (hfs : 0 < fs) (hofs : 0 < output_frame_size) (hfc1 : 1 ≤ fc) :
    (∀ i j, 0 ≤ (requantize_tf_spectrogram_common X_time X_y times block_size
        output_frame_size output_bin_count bin_range fs weights).1 i j)
    ∧ gridTotal ((requantize_tf_spectrogram_common X_time X_y times block_size
          output_frame_size output_bin_count bin_range fs weights).1)
        fc.toNat output_bin_count
      = inRangeWeightSum samples 0 ((fc : α) * output_frame_size / fs)
          bin_range.1 bin_range.2
    ∧ inRangeWeightSum samples 0 ((fc : α) * output_frame_size / fs)
        bin_range.1 bin_range.2 ≤ (weights.flatten).sum := by
  have hwflat : ∀ w ∈ weights.flatten, 0 ≤ w := by
    intro w hwm
    rcases List.mem_flatten.mp hwm with ⟨r, hr, hwr⟩
    exact hw r hr w hwr
  have hw' : ∀ s ∈ samples, 0 ≤ s.2.2 := by
    rintro ⟨st, sy, sw⟩ hs
    rw [hsamples] at hs
    have h1 := (List.of_mem_zip hs).2
    exact hwflat sw (List.of_mem_zip h1).2
  subst hsamples
  have hreq : requantize_tf_spectrogram_common X_time X_y times block_size
      output_frame_size output_bin_count bin_range fs weights
      = (histogram2d ((X_time.flatten).zip ((X_y.flatten).zip
            (weights.flatten)))
           0 ((fc : α) * output_frame_size / fs) fc.toNat
           bin_range.1 bin_range.2 output_bin_count,
         fc, (0, (fc : α) * output_frame_size / fs)) := by
    rw [hfc]
    rfl
  have hfcα : (1 : α) ≤ (fc : α) := by exact_mod_cast hfc1
  have hthi : (0 : α) < (fc : α) * output_frame_size / fs := by
    apply div_pos _ hfs
    exact mul_pos (lt_of_lt_of_le one_pos hfcα) hofs
  have hnT : 1 ≤ fc.toNat := by omega
  refine ⟨?_, ?_, ?_⟩
  · intro i j
    rw [hreq]
    exact histogram2d_nonneg _ _ _ _ _ _ _ hw' i j
  · rw [hreq]
    exact gridTotal_histogram2d_eq_inRangeWeightSum _ _ _ _ _ _ _ hthi hbr
      hnT hnB
  · refine le_trans (inRangeWeightSum_le_total _ _ _ _ _ hw') ?_
    have hsub : (((X_time.flatten).zip ((X_y.flatten).zip
        (weights.flatten))).map (fun s => s.2.2)).Sublist
        (weights.flatten) := by
      have h1 := zip_map_snd_sublist (X_time.flatten)
        ((X_y.flatten).zip (weights.flatten))
      have h2 := zip_map_snd_sublist (X_y.flatten) (weights.flatten)
      have h3 := h1.map Prod.snd
      rw [List.map_map] at h3
      exact h3.trans h2
    exact hsub.sum_le_sum hwflat

/-- Witness for claim C9 at a concrete input. -/
theorem requantize_mass_conservation_witness :
    (∀ i j, 0 ≤ (requantize_tf_spectrogram_common (α := ℚ) [[1/2]] [[1/4]]
        [0] 4 4 1 (0, 1/2) 4 [[7]]).1 i j)
    ∧ gridTotal ((requantize_tf_spectrogram_common (α := ℚ) [[1/2]] [[1/4]]
          [0] 4 4 1 (0, 1/2) 4 [[7]]).1) (1 : ℤ).toNat 1
      = inRangeWeightSum [((1:ℚ)/2, 1/4, 7)] 0 (((1 : ℤ) : ℚ) * 4 / 4)
          0 (1/2)
    ∧ inRangeWeightSum [((1:ℚ)/2, 1/4, 7)] 0 (((1 : ℤ) : ℚ) * 4 / 4)
        0 (1/2) ≤ ([[((7:ℚ))]].flatten).sum :=
  requantize_mass_conservation [[1/2]] [[1/4]] [[7]] [0] 4 4 1 (0, 1/2) 4
    [((1:ℚ)/2, 1/4, 7)] 1
    (by norm_num)
    (by norm_num [requantize_tf_spectrogram_common])
    (by norm_num)
    (by norm_num) (by norm_num) (by norm_num) (by norm_num) (by norm_num)

end ClaimTheoremsEngine

section Spectra

/-- Elementwise cross-spectrum `A * B.conj()` on 2-D complex arrays
(reassignment.py lines 10-18). -/
def cross_spectrum (spectrumA spectrumB : List (List ℂ)) : List (List ℂ) :=
  List.zipWith (List.zipWith (fun a b => a * (starRingEnd ℂ) b))
    spectrumA spectrumB

/-- `shift_right` (reassignment.py lines 20-27): every row of a 2-D array is
shifted one place toward higher index, index 0 filled with an exact zero and
the final element discarded (`np.hstack([zeros((rows, 1)), values[..., :-1]])`,
a fill operation, not circular). -/
def shift_right {β : Type} [Zero β] (values : List (List β)) :
    List (List β) :=
  values.map (fun r => 0 :: r.dropLast)

/-- `arg` (reassignment.py lines 29-38): the phase angle of a complex number
(`np.angle`, valued in `(-π, π]`) divided by `2π` and reduced modulo 1, so
the result lies in `[0, 1)`. -/
noncomputable def arg (z : ℂ) : ℝ :=
  Int.fract (Complex.arg z / (2 * Real.pi))

/-- `estimate_instant_freqs` (reassignment.py lines 40-53): elementwise
`arg` of the time-shift cross-spectrum. -/
noncomputable def estimate_instant_freqs (crossTimeSpectrum : List (List ℂ)) :
    List (List ℝ) :=
  crossTimeSpectrum.map (fun r => r.map arg)

/-- `estimate_group_delays` (reassignment.py lines 55-57): elementwise
`0.5 - arg` of the frequency-shift cross-spectrum. -/
noncomputable def estimate_group_delays (crossFreqSpectrum : List (List ℂ)) :
    List (List ℝ) :=
  crossFreqSpectrum.map (fun r => r.map (fun z => 0.5 - arg z))

/-- Modelled from the spec: `select_positive_freq_fft` of the missing
`spectrogram` module — restricts each spectrum-shaped row to the
non-redundant positive-frequency half including DC and Nyquist, i.e. its
first `n/2 + 1` entries (spec sections 4.2 step 8 and 6). -/
def select_positive_freq_fft {β : Type} (values : List (List β)) :
    List (List β) :=
  values.map (fun r => r.take (r.length / 2 + 1))

/-- Modelled from the spec: `positive_freq_magnitudes` of the missing
`spectrogram` module — the same positive-half restriction with non-DC,
non-Nyquist bins doubled to conserve energy (spec section 4.2 step 8). -/
def positive_freq_magnitudes (X : List (List ℝ)) : List (List ℝ) :=
  X.map (fun r =>
    List.zipWith
      (fun (i : ℕ) (v : ℝ) => if i = 0 ∨ i = r.length / 2 then v else 2 * v)
      (List.range (r.length / 2 + 1)) (r.take (r.length / 2 + 1)))

/-- The six arrays returned by `compute_spectra`. -/
structure Spectra where
  X : List (List ℂ)
  X_mag : List (List ℝ)
  X_cross_time : List (List ℂ)
  X_cross_freq : List (List ℂ)
  X_inst_freqs : List (List ℝ)
  X_group_delays : List (List ℝ)

/-- `compute_spectra` (reassignment.py lines 59-93).  The forward FFT is the
external transform collaborator and is passed in as the function argument
`fft`.  The estimators always run on the full spectrum; the `positive_only`
branch then restricts the magnitude via `positive_freq_magnitudes` and the
remaining five arrays via `select_positive_freq_fft`. -/
noncomputable def compute_spectra (fft : List (List ℝ) → List (List ℂ))
    (x : List (List ℝ)) (w : List ℝ) (positive_only : Bool) : Spectra :=
  let X := fft (x.map (fun r => List.zipWith (fun a b => a * b) r w))
  let X_mag := X.map (fun r => r.map (fun z => Complex.abs z / (numCols X : ℝ)))
  let X_prev_time :=
    fft ((shift_right x).map (fun r => List.zipWith (fun a b => a * b) r w))
  let X_prev_freq := shift_right X
  let X_cross_time := cross_spectrum X X_prev_time
  let X_cross_freq := cross_spectrum X X_prev_freq
  let X_inst_freqs := estimate_instant_freqs X_cross_time
  let X_group_delays := estimate_group_delays X_cross_freq
  if positive_only then
    { X := select_positive_freq_fft X
      X_mag := positive_freq_magnitudes X_mag
      X_cross_time := select_positive_freq_fft X_cross_time
      X_cross_freq := select_positive_freq_fft X_cross_freq
      X_inst_freqs := select_positive_freq_fft X_inst_freqs
      X_group_delays := select_positive_freq_fft X_group_delays }
  else
    { X := X, X_mag := X_mag, X_cross_time := X_cross_time
      X_cross_freq := X_cross_freq, X_inst_freqs := X_inst_freqs
      X_group_delays := X_group_delays }

lemma cross_spectrum_conj_comm_aux (A B : List (List ℂ)) :
    cross_spectrum A B
      = (cross_spectrum B A).map (fun r => r.map (starRingEnd ℂ)) := by
  have hrow : ∀ ra rb : List ℂ,
      List.zipWith (fun a b => a * (starRingEnd ℂ) b) ra rb
        = (List.zipWith (fun a b => a * (starRingEnd ℂ) b) rb ra).map
            (starRingEnd ℂ) := by
    intro ra rb
    induction ra generalizing rb with
    | nil => simp
    | cons a ra ih =>
      rcases rb with _ | ⟨b, rb⟩
      · simp
      · simp only [List.zipWith_cons_cons, List.map_cons]
        rw [ih rb]
        congr 1
        rw [map_mul, Complex.conj_conj, mul_comm]
  unfold cross_spectrum
  induction A generalizing B with
  | nil => simp
  | cons ra A ih =>
    rcases B with _ | ⟨rb, rB⟩
    · simp
    · simp only [List.zipWith_cons_cons, List.map_cons]
      rw [hrow ra rb, ih rB]

end Spectra

section ClaimTheoremsSpectra

/-- Claim C3: for every block batch, window and FFT collaborator, the
instantaneous-frequency and group-delay arrays under
`positive_only = True` are exactly the half-spectrum selector applied to
the arrays computed under `positive_only = False` — estimation always runs
on the full spectrum and restriction happens strictly afterwards. -/
theorem compute_spectra_restricts_after_estimation
    (fft : List (List ℝ) → List (List ℂ)) (x : List (List ℝ)) (w : List ℝ) :
    (compute_spectra fft x w true).X_inst_freqs
      = select_positive_freq_fft ((compute_spectra fft x w false).X_inst_freqs)
    ∧ (compute_spectra fft x w true).X_group_delays
      = select_positive_freq_fft
          ((compute_spectra fft x w false).X_group_delays) :=
  ⟨rfl, rfl⟩

/-- Claim C6: every element of the group-delay array lies in the closed
interval `[-0.5, 0.5]` (a consequence of `arg` being valued in `[0, 1)`). -/
theorem estimate_group_delays_range (X : List (List ℂ)) (r : List ℝ) (v : ℝ)
    (hr : r ∈ estimate_group_delays X) (hv : v ∈ r) :
    -(1/2) ≤ v ∧ v ≤ 1/2 := by
  rcases List.mem_map.mp hr with ⟨row, _hrow, rfl⟩
  rcases List.mem_map.mp hv with ⟨z, _hz, rfl⟩
  have h1 : 0 ≤ arg z := by unfold arg; exact Int.fract_nonneg _
  have h2 : arg z < 1 := by unfold arg; exact Int.fract_lt_one _
  constructor <;> [linarith; linarith]

/-- Witness for claim C6: the group delay of the zero cross-spectrum element
is 0.5 and lies within the claimed interval. -/
theorem estimate_group_delays_range_witness :
    [(1/2 : ℝ)] ∈ estimate_group_delays [[0]]
    ∧ (1/2 : ℝ) ∈ [(1/2 : ℝ)]
    ∧ (-(1/2) ≤ (1/2 : ℝ) ∧ (1/2 : ℝ) ≤ 1/2) := by
  have hlist : estimate_group_delays [[(0 : ℂ)]] = [[(1/2 : ℝ)]] := by
    simp [estimate_group_delays, arg, Complex.arg_zero]
    norm_num
  have hr : [(1/2 : ℝ)] ∈ estimate_group_delays [[(0 : ℂ)]] := by
    rw [hlist]; exact List.mem_singleton_self _
  exact ⟨hr, List.mem_singleton_self _,
    estimate_group_delays_range [[0]] [(1/2)] (1/2) hr
      (List.mem_singleton_self _)⟩

/-- Claim C7: for every non-zero complex `z`, `arg z` lies in `[0, 1)`, and
`arg (k * z) = arg z` for every positive real scalar `k`. -/
theorem arg_range_and_scale_invariance (z : ℂ) (_hz : z ≠ 0) (k : ℝ)
    (hk : 0 < k) :
    (0 ≤ arg z ∧ arg z < 1) ∧ arg ((k : ℂ) * z) = arg z := by
  refine ⟨⟨by unfold arg; exact Int.fract_nonneg _,
           by unfold arg; exact Int.fract_lt_one _⟩, ?_⟩
  unfold arg
  rw [Complex.arg_real_mul z hk]

/-- Witness for claim C7 at `z = I`, `k = 2`. -/
theorem arg_range_and_scale_invariance_witness :
    (0 ≤ arg Complex.I ∧ arg Complex.I < 1)
    ∧ arg (((2 : ℝ) : ℂ) * Complex.I) = arg Complex.I :=
  arg_range_and_scale_invariance Complex.I Complex.I_ne_zero 2 (by norm_num)

/-- Claim C8: for same-shape complex arrays, the cross-spectrum of `(A, B)`
is the elementwise complex conjugate of the cross-spectrum of `(B, A)`. -/
theorem cross_spectrum_conj_comm (A B : List (List ℂ))
    (_h : A.length = B.length) :
    cross_spectrum A B
      = (cross_spectrum B A).map (fun r => r.map (starRingEnd ℂ)) :=
  cross_spectrum_conj_comm_aux A B

/-- Witness for claim C8 at concrete one-element arrays. -/
theorem cross_spectrum_conj_comm_witness :
    ([[Complex.I]] : List (List ℂ)).length
        = ([[2]] : List (List ℂ)).length
    ∧ cross_spectrum [[Complex.I]] [[2]]
        = (cross_spectrum [[2]] [[Complex.I]]).map
            (fun r => r.map (starRingEnd ℂ)) :=
  ⟨rfl, cross_spectrum_conj_comm [[Complex.I]] [[2]] rfl⟩

/-- Claim C10: `arg` of the zero complex number is exactly 0 (no error is
possible, the function is total), so a zero cross-spectrum element yields
instantaneous frequency exactly 0 and group delay exactly 0.5. -/
theorem arg_zero_defaults :
    arg 0 = 0
    ∧ estimate_instant_freqs [[0]] = [[0]]
    ∧ estimate_group_delays [[0]] = [[1/2]] := by
  have h : arg 0 = 0 := by
    unfold arg
    rw [Complex.arg_zero]
    simp
  refine ⟨h, ?_, ?_⟩
  · simp [estimate_instant_freqs, h]
  · simp [estimate_group_delays, h]
    norm_num

end ClaimTheoremsSpectra

section Pitch

/-- Modelled from the spec: the external tuning collaborator's pitch
quantizer (`PitchQuantizer(Tuning(), bin_division).quantize` of the missing
`tuning` module).  A frequency in Hz is converted to a pitch relative to
A4 = 440 Hz with 12 steps per octave (so the spec's default bin range
(-48, 67) spans ~27.5 Hz to ~21096.2 Hz) and rounded to the nearest
multiple of `1 / bin_division` — per the spec the quantizer rounds values
from both sides towards the quantized pitch value. -/
noncomputable def pitch_quantize (bin_division : ℕ) (freq : ℝ) : ℝ :=
  (round (12 * Real.logb 2 (freq / 440) * (bin_division : ℝ)) : ℤ)
    / (bin_division : ℝ)

/-- Per-sample pitch coordinates of the strategy path
(`transform_freqs_chromagram`, reassignment.py lines 123-142): the
quantization border `1/(2*bin_division)` is added to the epsilon-floored
frequency BEFORE quantization. -/
noncomputable def transform_freqs_chromagram_coords (fs : ℝ)
    (bin_division : ℕ) (X_inst_freqs : List (List ℝ)) : List (List ℝ) :=
  X_inst_freqs.map (fun r => r.map (fun v =>
    pitch_quantize bin_division
      (max (fs * v) eps32 + 1 / (2 * (bin_division : ℝ)))))

/-- Per-sample pitch coordinates of the standalone `chromagram`
(reassignment.py lines 258-282): the epsilon-floored frequency is quantized
directly, with no quantization border, then flattened for the histogram. -/
noncomputable def chromagram_pitch_bins (fs : ℝ) (bin_division : ℕ)
    (X_inst_freqs : List (List ℝ)) : List ℝ :=
  (X_inst_freqs.map (fun r => r.map (fun v =>
    pitch_quantize bin_division (max (fs * v) eps32)))).flatten

lemma logb_lt_of_pow_lt {x : ℝ} (hx : 0 < x) {n : ℕ} (hn : 0 < n)
    (h : x ^ n < 2) : Real.logb 2 x < 1 / (n : ℝ) := by
  rw [Real.logb, div_lt_div_iff₀ (Real.log_pos one_lt_two)
    (by exact_mod_cast hn : (0 : ℝ) < (n : ℝ))]
  have h2 : Real.log (x ^ n) < Real.log 2 := Real.log_lt_log (pow_pos hx n) h
  rw [Real.log_pow] at h2
  linarith

lemma le_logb_of_two_le_pow {x : ℝ} (_hx : 0 < x) {n : ℕ} (hn : 0 < n)
    (h : 2 ≤ x ^ n) : 1 / (n : ℝ) ≤ Real.logb 2 x := by
  rw [Real.logb, div_le_div_iff₀ (by exact_mod_cast hn : (0 : ℝ) < (n : ℝ))
    (Real.log_pos one_lt_two)]
  have h2 : Real.log 2 ≤ Real.log (x ^ n) :=
    Real.log_le_log (by norm_num) h
  rw [Real.log_pow] at h2
  linarith

lemma round_eq_zero_of {θ : ℝ} (h1 : 0 ≤ θ) (h2 : θ < 1/2) : round θ = 0 := by
  rw [round_eq]
  apply Int.floor_eq_iff.mpr
  constructor <;> push_cast <;> linarith

lemma round_eq_one_of {θ : ℝ} (h1 : 1/2 ≤ θ) (h2 : θ < 3/2) : round θ = 1 := by
  rw [round_eq]
  apply Int.floor_eq_iff.mpr
  constructor <;> push_cast <;> linarith

lemma pitch_quantize_4528 : pitch_quantize 1 (4528/10) = 0 := by
  unfold pitch_quantize
  have hx : ((4528 : ℝ)/10) / 440 = 283/275 := by norm_num
  rw [hx]
  have h0 : (0 : ℝ) ≤ 12 * Real.logb 2 (283/275) := by
    have := Real.logb_nonneg (by norm_num : (1 : ℝ) < 2)
      (by norm_num : (1 : ℝ) ≤ 283/275)
    linarith
  have h1 : 12 * Real.logb 2 ((283 : ℝ)/275) < 1/2 := by
    have h24 := logb_lt_of_pow_lt (x := (283 : ℝ)/275) (by norm_num)
      (n := 24) (by norm_num) (by norm_num)
    norm_num at h24
    linarith
  have hround : round (12 * Real.logb 2 ((283 : ℝ)/275) * ((1 : ℕ) : ℝ)) = 0 := by
    push_cast
    rw [mul_one]
    exact round_eq_zero_of h0 h1
  rw [hround]
  norm_num

lemma pitch_quantize_4533 : pitch_quantize 1 (4533/10) = 1 := by
  unfold pitch_quantize
  have hx : ((4533 : ℝ)/10) / 440 = 4533/4400 := by norm_num
  rw [hx]
  have h1 : 1/2 ≤ 12 * Real.logb 2 ((4533 : ℝ)/4400) := by
    have h24 := le_logb_of_two_le_pow (x := (4533 : ℝ)/4400) (by norm_num)
      (n := 24) (by norm_num) (by norm_num)
    norm_num at h24
    linarith
  have h2 : 12 * Real.logb 2 ((4533 : ℝ)/4400) < 3/2 := by
    have h8 := logb_lt_of_pow_lt (x := (4533 : ℝ)/4400) (by norm_num)
      (n := 8) (by norm_num) (by norm_num)
    norm_num at h8
    linarith
  have hround : round (12 * Real.logb 2 ((4533 : ℝ)/4400) * ((1 : ℕ) : ℝ)) = 1 := by
    push_cast
    rw [mul_one]
    exact round_eq_one_of h1 h2
  rw [hround]
  norm_num

end Pitch

section ClaimTheoremsPitch

/-- Claim C2 (code divergence exhibited at a failing input): the standalone
`chromagram` quantizes the epsilon-floored frequency directly while the
strategy path `transform_freqs_chromagram` adds the quantization border
`1/(2*bin_division)` to the frequency before quantizing; at
`fs = 9056`, `X_inst_freqs = [[1/20]]` (i.e. 452.8 Hz, just below the
rounding boundary ~452.89 Hz between pitches 0 and 1), `bin_division = 1`
and the default bin range `(-48, 67)` with 115 bins, the standalone path
assigns pitch 0 (histogram bin 48) while the strategy path assigns pitch 1
(histogram bin 49) — the two paths do not reproduce identical pitch-bin
assignments. -/
theorem chromagram_pitch_assignment_divergence :
    chromagram_pitch_bins 9056 1 [[1/20]] = [0]
    ∧ (transform_freqs_chromagram_coords 9056 1 [[1/20]]).flatten = [1]
    ∧ binIndex (-48 : ℝ) 67 115 0 = some 48
    ∧ binIndex (-48 : ℝ) 67 115 1 = some 49 := by
  have hmax : max ((9056 : ℝ) * (1/20)) eps32 = 4528/10 := by
    rw [max_eq_left] <;> norm_num [eps32]
  refine ⟨?_, ?_, ?_, ?_⟩
  · simp only [chromagram_pitch_bins, List.map_cons, List.map_nil,
      List.flatten_cons, List.flatten_nil, List.append_nil]
    rw [hmax, pitch_quantize_4528]
  · simp only [transform_freqs_chromagram_coords, List.map_cons,
      List.map_nil, List.flatten_cons, List.flatten_nil, List.append_nil]
    have hsum : max ((9056 : ℝ) * (1/20)) eps32 + 1 / (2 * ((1 : ℕ) : ℝ))
        = 4533/10 := by
      rw [hmax]; norm_num
    rw [hsum, pitch_quantize_4533]
  · norm_num [binIndex]
    rfl
  · norm_num [binIndex]
    rfl

end ClaimTheoremsPitch

end TFR

